import Mathlib

/-!
Shallow embedding of the course-catalog core pipeline:
CSV row validation (`parseCoursesCsv`), record aggregation and canonical
ordering (`loadCourses`), conjunctive filtering with a result cap
(`filterLoop`), priority ranking by stable partition (`prioritize`),
and adjacent-duplicate row spans (`visibleCourseIdRowSpans`).

JavaScript strings are modelled as lists of characters; the numeric
result cap is modelled by `JsNum`, which distinguishes NaN from integer
values so that the `length === cap + 1` comparison can be rendered
faithfully.
-/

namespace Akiko

/-- Model of a JavaScript string: a list of characters. -/
abbrev Str := List Char

/-- Model of `String.prototype.toUpperCase` (per-character uppercasing). -/
def upper (s : Str) : Str := s.map Char.toUpper

/-- Model of `String.prototype.toLowerCase` (per-character lowercasing). -/
def lower (s : Str) : Str := s.map Char.toLower

/-- Left part of `String.prototype.trim`: drop leading whitespace. -/
def trimL (s : Str) : Str := s.dropWhile Char.isWhitespace

/-- Model of `String.prototype.trim`: drop leading and trailing whitespace. -/
def trim (s : Str) : Str := ((trimL s).reverse.dropWhile Char.isWhitespace).reverse

/-- Model of `hay.includes(needle)`: `needle` occurs contiguously in `hay`.
Checks whether `needle` is a prefix of some suffix of `hay`. -/
def hasSub (needle : Str) : Str → Bool
  | [] => needle.isPrefixOf []
  | c :: t => needle.isPrefixOf (c :: t) || hasSub needle t

/-- Model of the JavaScript `<` comparison on strings: strict lexicographic
order on the character sequences, comparing code points. -/
def strLt : Str → Str → Bool
  | _, [] => false
  | [], _ :: _ => true
  | a :: as, b :: bs =>
    if a.toNat < b.toNat then true
    else if b.toNat < a.toNat then false
    else strLt as bs

/-- The `Course` record type from the source (`type Course` in the page
component): nine string fields, the dataset year and the synthesized
sort key. -/
structure Course where
  id : Str
  name : Str
  credit : Str
  term : Str
  when : Str
  expects : Str
  remark : Str
  description : Str
  organizer : Str
  year : Nat
  key : Str
deriving DecidableEq

/-- Comparison used by `courses.sort(courseCompare)`: `a` precedes or equals
`b` when `a.key` is not strictly greater than `b.key`. A JavaScript stable
sort with the three-way comparator `courseCompare` orders by exactly this
relation. -/
def keyLe (a b : Course) : Prop := strLt b.key a.key = false

instance : DecidableRel keyLe := fun a b => by
  unfold keyLe
  infer_instance

/-! ### TabularParser (`parseCoursesCsv`)

The CSV decoder (`papaparse.parse`) is an external library; its output is
modelled abstractly as a `ParseResult`: an error count and a list of decoded
row items, where each cell of a decoded object row is either absent, a string,
or a value of some non-string type. -/

/-- A decoded cell value: a string, or a value of some other runtime type
(papaparse may infer non-string types for ambiguous cells). -/
inductive CellValue
  | str (s : Str)
  | nonString
deriving DecidableEq

/-- A decoded object row: one optional cell per schema column
(科目番号, 科目名, 単位数, 実施学期, 曜時限, 標準履修年次, 備考, 授業概要,
担当教員, in that order). `none` models a missing column. -/
structure RawRow where
  idCell : Option CellValue
  nameCell : Option CellValue
  creditCell : Option CellValue
  termCell : Option CellValue
  whenCell : Option CellValue
  expectsCell : Option CellValue
  remarkCell : Option CellValue
  descriptionCell : Option CellValue
  organizerCell : Option CellValue
deriving DecidableEq

/-- An item of the decoder's `data` array: an object row, or a non-object
value (the source guards with `typeof row === "object" && row !== null`). -/
inductive RawItem
  | obj (row : RawRow)
  | nonObject
deriving DecidableEq

/-- The decoder's result: the length of its `errors` array and its `data`
array of decoded rows. -/
structure ParseResult where
  errors : Nat
  data : List RawItem
deriving DecidableEq

/-- Extract a cell only when it is present and of string type, mirroring the
`"col" in row && typeof row["col"] === "string"` guard. -/
def cellString : Option CellValue → Option Str
  | some (.str s) => some s
  | _ => none

/-- The structural row guard of `parseCoursesCsv`: the row must be an object
and every one of the nine schema columns must be present with a string
value; returns the nine raw field strings in schema order. -/
def rowFields (it : RawItem) :
    Option (Str × Str × Str × Str × Str × Str × Str × Str × Str) :=
  match it with
  | .nonObject => none
  | .obj r =>
    match cellString r.idCell, cellString r.nameCell, cellString r.creditCell,
        cellString r.termCell, cellString r.whenCell, cellString r.expectsCell,
        cellString r.remarkCell, cellString r.descriptionCell,
        cellString r.organizerCell with
    | some i, some n, some cr, some t, some w, some e, some rm, some d,
        some o => some (i, n, cr, t, w, e, rm, d, o)
    | _, _, _, _, _, _, _, _, _ => none

/-- Per-row body of the `parseCoursesCsv` loop: validate the row structure,
trim the identifier and skip the row when it trims to empty, otherwise build
the `Course` with all fields trimmed, the caller-supplied year, and the
synthesized key `id ++ "," ++ year`. -/
def parseRowCourse (year : Nat) (it : RawItem) : Option Course :=
  match rowFields it with
  | none => none
  | some (i, n, cr, t, w, e, rm, d, o) =>
    let id := trim i
    if id = [] then none
    else some
      { id := id, name := trim n, credit := trim cr, term := trim t,
        when := trim w, expects := trim e, remark := trim rm,
        description := trim d, organizer := trim o, year := year,
        key := id ++ ',' :: Nat.toDigits 10 year }

/-- The parser `parseCoursesCsv`: fail wholesale (return `none`, the model of
`undefined`) when the decoder reported any error; otherwise collect the
courses of the accepted rows in order. -/
def parseCoursesCsv (res : ParseResult) (year : Nat) : Option (List Course) :=
  if res.errors > 0 then none
  else some (res.data.filterMap (parseRowCourse year))

/-! ### RecordStore (`loadCourses`)

The source iterates a fixed list of three (csv, year) sources; here the
source list is the parameter. A parse failure trips `assert`, modelled by
propagating `none`. -/

/-- The accumulation loop of `loadCourses`: parse each source in order and
append the results; fail if any source fails. -/
def parseAll : List (ParseResult × Nat) → Option (List Course)
  | [] => some []
  | p :: ps =>
    match parseCoursesCsv p.1 p.2, parseAll ps with
    | some cs, some rest => some (cs ++ rest)
    | _, _ => none

/-- The store builder `loadCourses`: concatenate all per-source parse results, then sort once
with `courseCompare` (a stable sort by `key` ascending, modelled by
insertion sort over `keyLe`). -/
def loadCourses (sources : List (ParseResult × Nat)) : Option (List Course) :=
  match parseAll sources with
  | none => none
  | some all => some (List.insertionSort keyLe all)

/-! ### FilterEngine (`visibleCourses` / `maxExceeded`) -/

/-- The identifier filter mode enum (`"prefix" | "contain"`). -/
inductive IdFilterMode
  | prefixMode
  | containMode
deriving DecidableEq

/-- The name filter mode enum (`"contain" | "exact"`). -/
inductive NameFilterMode
  | containMode
  | exactMode
deriving DecidableEq

/-- The filter configuration state read by the derived computation:
identifier filter text and mode, name filter text and mode, and the set of
checked years (a `SvelteSet`, modelled by a list queried for membership). -/
structure FilterConfig where
  idFilter : Str
  idFilterMode : IdFilterMode
  nameFilter : Str
  nameFilterMode : NameFilterMode
  yearFilter : List Nat

/-- The identifier sub-predicate as computed in the filter loop: the
already-uppercased filter text is compared against the identifier with
`startsWith` in prefix mode and `includes` in contain mode. -/
def idFilterPasses (pm : Bool) (uppercaseIdFilter : Str) (c : Course) : Bool :=
  if pm then uppercaseIdFilter.isPrefixOf c.id else hasSub uppercaseIdFilter c.id

/-- The conjunction of the three sub-predicates tested by the filter loop:
identifier match (against `idFilter.toUpperCase()`), name match
(case-sensitive equality in exact mode, case-insensitive substring
otherwise), and year membership. -/
def coursePassesFilter (cfg : FilterConfig) (c : Course) : Bool :=
  idFilterPasses (decide (cfg.idFilterMode = .prefixMode)) (upper cfg.idFilter) c
    && (if cfg.nameFilterMode = .exactMode then decide (c.name = cfg.nameFilter)
        else hasSub (lower cfg.nameFilter) (lower c.name))
    && cfg.yearFilter.contains c.year

/-- A JavaScript number as far as the cap logic observes it: NaN or an
integer. `NaN + 1` is NaN and `length === NaN` is false. -/
inductive JsNum
  | nan
  | int (n : Int)
deriving DecidableEq

/-- Model of `cap + 1` on a JavaScript number. -/
def jsAddOne : JsNum → JsNum
  | .nan => .nan
  | .int n => .int (n + 1)

/-- Model of `length === v` for an array length and a JavaScript number:
false against NaN, integer equality otherwise. -/
def jsEqLen (len : Nat) : JsNum → Bool
  | .nan => false
  | .int n => decide ((len : Int) = n)

/-- The filter loop of the derived computation. `len` is the number of
courses pushed so far. A passing course is pushed; if the length then equals
`cap + 1` the course is popped again, `maxExceeded` is set and the loop
breaks. Returns the remaining pushed courses and the `maxExceeded` flag. -/
def filterLoop (cap : JsNum) (pred : Course → Bool) :
    List Course → Nat → List Course × Bool
  | [], _ => ([], false)
  | c :: cs, len =>
    if pred c then
      if jsEqLen (len + 1) (jsAddOne cap) then ([], true)
      else
        let r := filterLoop cap pred cs (len + 1)
        (c :: r.1, r.2)
    else filterLoop cap pred cs len

/-- The derived `visibleCourses` and `maxExceeded`: run the filter loop over the whole
course collection with the configured predicate and cap. -/
def visibleCoursesOf (courses : List Course) (cfg : FilterConfig)
    (cap : JsNum) : List Course × Bool :=
  filterLoop cap (coursePassesFilter cfg) courses 0

/-! ### PriorityRanker (`prioritizedCount`) -/

/-- The match predicate `courseContainsString`: lowercase the query once, then test it as a
substring of the lowercased id, name, credit, term, when, expects, remark
and organizer fields, and of the description iff `useDescription`. -/
def courseContainsString (c : Course) (s : Str) (useDescription : Bool) :
    Bool :=
  let t := lower s
  hasSub t (lower c.id) || hasSub t (lower c.name) || hasSub t (lower c.credit)
    || hasSub t (lower c.term) || hasSub t (lower c.when)
    || hasSub t (lower c.expects) || hasSub t (lower c.remark)
    || hasSub t (lower c.organizer)
    || (useDescription && hasSub t (lower c.description))

/-- The utility `sortByKeyCached` from the util module: pair every element with its numeric
key, sort the pairs by key with the JavaScript stable sort (modelled by
insertion sort on the key order), and read the elements back out. -/
def sortByKeyCached {α : Type} (ts : List α) (getKey : α → Int) : List α :=
  (List.insertionSort (fun a b : Int × α => a.1 ≤ b.1)
    (ts.map fun t => (getKey t, t))).map (fun p => p.2)

/-- The priority stage of the derived computation: when the priority string
is non-empty, reorder by `sortByKeyCached` with key
`-courseContainsString c`, then count matching courses from the front,
stopping at the first non-match; when the priority string is empty, the
list is left alone and the count stays `undefined` (`none`). -/
def prioritize (l : List Course) (q : Str) (useDescription : Bool) :
    List Course × Option Nat :=
  if q = [] then (l, none)
  else
    let sorted := sortByKeyCached l
      (fun c => -(if courseContainsString c q useDescription then (1 : Int) else 0))
    (sorted,
      some (sorted.takeWhile (fun c => courseContainsString c q useDescription)).length)

/-! ### GroupSpanner (`visibleCourseIdRowSpans`) -/

/-- Inner state machine of the duplicate-count loop: `curId` is the
identifier of the run being counted and `cur` its count so far. A course
with a different id closes the current run and starts a new one. -/
def dupCountsGo (curId : Str) (cur : Nat) : List Course → List Nat
  | [] => [cur]
  | c :: cs =>
    if c.id = curId then dupCountsGo curId (cur + 1) cs
    else cur :: dupCountsGo c.id 1 cs

/-- The derived `duplicateCourseIdCounts`: the lengths of the maximal runs of adjacent
courses sharing an identifier, in order. The initial
`lastCourseId = undefined` differs from every id, so the first course always
opens a run. -/
def dupCounts : List Course → List Nat
  | [] => []
  | c :: cs => dupCountsGo c.id 1 cs

/-- The derived `visibleCourseIdRowSpans`: expand each run count `n` into `n` followed
by `n - 1` zeros. -/
def visibleCourseIdRowSpans (l : List Course) : List Nat :=
  (dupCounts l).flatMap (fun n => n :: List.replicate (n - 1) 0)

/-- A concrete course with the given identifier, name and year, empty in
the remaining fields, and the synthesized key; used for concrete instances
of the theorems below. -/
def mkCourse (id : Str) (name : Str) (year : Nat) : Course :=
  { id := id, name := name, credit := [], term := [], when := [],
    expects := [], remark := [], description := [], organizer := [],
    year := year, key := id ++ ',' :: Nat.toDigits 10 year }

/-! ### Lemmas about the filter loop -/

/-- With an integer cap `k` and `len ≤ k` courses already pushed, the filter
loop returns the next `k - len` passing courses and reports truncation iff
strictly more than `k - len` courses pass. -/
theorem filterLoop_int (pred : Course → Bool) (k : Nat) :
    ∀ (l : List Course) (len : Nat), len ≤ k →
      filterLoop (.int k) pred l len
        = ((l.filter pred).take (k - len),
            decide (k - len < (l.filter pred).length)) := by
  intro l
  induction l with
  | nil => intro len h; simp [filterLoop]
  | cons c cs ih =>
    intro len hlen
    by_cases hp : pred c
    · by_cases hk : len = k
      · subst hk
        simp [filterLoop, hp, jsEqLen, jsAddOne, List.filter_cons, hp]
      · have hlt : len < k := lt_of_le_of_ne hlen hk
        have h1 : (len : Int) + 1 = (k : Int) + 1 ↔ False := by
          constructor
          · intro h; exact hk (by exact_mod_cast (by omega : (len : Int) = k))
          · intro h; exact h.elim
        have hrec := ih (len + 1) (by omega)
        simp only [filterLoop, hp, if_true, jsEqLen, jsAddOne]
        rw [if_neg (by simp [h1]), hrec]
        have hsub : k - len = (k - (len + 1)) + 1 := by omega
        simp [List.filter_cons, hp, hsub, List.take_succ_cons]
    · simp only [filterLoop, hp, if_false, List.filter_cons, hp]
      exact ih len hlen

/-- With a NaN cap the break condition never fires: the loop returns every
passing course and never reports truncation. -/
theorem filterLoop_nan (pred : Course → Bool) :
    ∀ (l : List Course) (len : Nat),
      filterLoop .nan pred l len = (l.filter pred, false) := by
  intro l
  induction l with
  | nil => intro len; simp [filterLoop]
  | cons c cs ih =>
    intro len
    by_cases hp : pred c
    · simp [filterLoop, hp, jsEqLen, jsAddOne, List.filter_cons, ih]
    · simp [filterLoop, hp, List.filter_cons, ih]

/-- An all-pass filter configuration over year 1: empty identifier filter in
prefix mode, empty name filter in contain mode, year set `{1}`. -/
def cfgAll : FilterConfig :=
  { idFilter := [], idFilterMode := .prefixMode, nameFilter := [],
    nameFilterMode := .containMode, yearFilter := [1] }

/-- Two concrete year-1 courses, both passing `cfgAll`. -/
def demoCourses : List Course :=
  [mkCourse ['a'] [] 1, mkCourse ['b'] [] 1]

/-- C1: FilterEngine cap semantics. For every record sequence, predicate
configuration and positive integer cap `k`: when at least `k + 1` records
match, the result is the first `k` matches (so it has exactly `k` records),
`truncated = true`, and the scan has halted — appending further records to
the input changes nothing; when exactly `k` records match, the result is all
`k` matches and `truncated = false`. -/
theorem C1_filter_cap_semantics (courses : List Course) (cfg : FilterConfig)
    (k : Nat) (_hk : 1 ≤ k) :
    (k + 1 ≤ (courses.filter (coursePassesFilter cfg)).length →
      visibleCoursesOf courses cfg (.int k)
          = ((courses.filter (coursePassesFilter cfg)).take k, true)
        ∧ (visibleCoursesOf courses cfg (.int k)).1.length = k
        ∧ ∀ extra, visibleCoursesOf (courses ++ extra) cfg (.int k)
            = visibleCoursesOf courses cfg (.int k))
    ∧ ((courses.filter (coursePassesFilter cfg)).length = k →
      visibleCoursesOf courses cfg (.int k)
          = (courses.filter (coursePassesFilter cfg), false)) := by
  have base := filterLoop_int (coursePassesFilter cfg) k courses 0 (Nat.zero_le k)
  constructor
  · intro hge
    have h1 : visibleCoursesOf courses cfg (.int k)
        = ((courses.filter (coursePassesFilter cfg)).take k, true) := by
      rw [visibleCoursesOf, base]
      simp only [Nat.sub_zero]
      congr 1
      simp only [decide_eq_true_iff]
      omega
    refine ⟨h1, ?_, ?_⟩
    · rw [h1]
      simp only [List.length_take]
      omega
    · intro extra
      have base2 := filterLoop_int (coursePassesFilter cfg) k
        (courses ++ extra) 0 (Nat.zero_le k)
      rw [visibleCoursesOf, base2, h1]
      rw [List.filter_append]
      simp only [Nat.sub_zero, Prod.mk.injEq]
      constructor
      · exact List.take_append_of_le_length (by omega)
      · simp only [decide_eq_true_iff, List.length_append]
        omega
  · intro heq
    rw [visibleCoursesOf, base]
    simp only [Nat.sub_zero, Prod.mk.injEq]
    constructor
    · rw [← heq, List.take_length]
    · simp only [decide_eq_false_iff_not]
      omega

/-- Concrete instance of `C1_filter_cap_semantics`: two matching courses and
cap 1 give the first match and `truncated = true`. -/
theorem C1_filter_cap_semantics_witness :
    visibleCoursesOf demoCourses cfgAll (.int 1)
      = ((demoCourses.filter (coursePassesFilter cfgAll)).take 1, true) :=
  ((C1_filter_cap_semantics demoCourses cfgAll 1 (by decide)).1 (by decide)).1

/-! ### Lemmas about the duplicate-run computation -/

/-- The maximal adjacent runs of equal-identifier courses, written in the
same accumulator style as the duplicate-count loop: `run` holds the current
run reversed. -/
def chunksGo (curId : Str) (run : List Course) : List Course → List (List Course)
  | [] => [run.reverse]
  | c :: cs =>
    if c.id = curId then chunksGo curId (c :: run) cs
    else run.reverse :: chunksGo c.id [c] cs

/-- The maximal adjacent runs of equal-identifier courses of a list. -/
def chunks : List Course → List (List Course)
  | [] => []
  | c :: cs => chunksGo c.id [c] cs

/-- The identifier a run is made of (of the empty run: the empty string). -/
def runId : List Course → Str
  | [] => []
  | c :: _ => c.id

/-- The duplicate-count loop computes the lengths of the runs. -/
theorem dupCountsGo_eq_map_length (cs : List Course) :
    ∀ (curId : Str) (run : List Course), run ≠ [] →
      dupCountsGo curId run.length cs = (chunksGo curId run cs).map List.length := by
  induction cs with
  | nil => intro curId run _; simp [dupCountsGo, chunksGo]
  | cons c cs ih =>
    intro curId run hr
    by_cases h : c.id = curId
    · have := ih curId (c :: run) (by simp)
      simpa [dupCountsGo, chunksGo, h] using this
    · have := ih c.id [c] (by simp)
      simpa [dupCountsGo, chunksGo, h] using this

/-- The run lengths of a list are the lengths of its chunks. -/
theorem dupCounts_eq_map_length (l : List Course) :
    dupCounts l = (chunks l).map List.length := by
  cases l with
  | nil => rfl
  | cons c cs =>
    have := dupCountsGo_eq_map_length cs c.id [c] (by simp)
    simpa [dupCounts, chunks] using this

/-- Flattening the chunks gives back the list. -/
theorem chunksGo_flatten (cs : List Course) :
    ∀ (curId : Str) (run : List Course),
      (chunksGo curId run cs).flatten = run.reverse ++ cs := by
  induction cs with
  | nil => intro curId run; simp [chunksGo]
  | cons c cs ih =>
    intro curId run
    by_cases h : c.id = curId
    · rw [chunksGo, if_pos h, ih]
      simp
    · rw [chunksGo, if_neg h]
      simp [ih]

/-- A reversed constant-identifier run has that identifier as its `runId`. -/
theorem runId_reverse (run : List Course) (curId : Str) (hr : run ≠ [])
    (hall : ∀ x ∈ run, x.id = curId) : runId run.reverse = curId := by
  rcases List.exists_cons_of_ne_nil
    (by simpa using hr : run.reverse ≠ []) with ⟨h0, t0, he⟩
  have hh : h0 ∈ run := by
    have : h0 ∈ run.reverse := by rw [he]; simp
    simpa using this
  rw [he]
  simp only [runId]
  exact hall h0 hh

/-- Every chunk is a nonempty run of a single identifier. -/
theorem chunksGo_runs (cs : List Course) :
    ∀ (curId : Str) (run : List Course), run ≠ [] →
      (∀ x ∈ run, x.id = curId) →
      ∀ g ∈ chunksGo curId run cs, g ≠ [] ∧ ∀ x ∈ g, x.id = runId g := by
  induction cs with
  | nil =>
    intro curId run hr hall g hg
    simp only [chunksGo, List.mem_singleton] at hg
    subst hg
    refine ⟨by simpa using hr, ?_⟩
    intro x hx
    have hx1 : x ∈ run := by simpa using hx
    rw [runId_reverse run curId hr hall]
    exact hall x hx1
  | cons c cs ih =>
    intro curId run hr hall g hg
    by_cases h : c.id = curId
    · rw [chunksGo, if_pos h] at hg
      exact ih curId (c :: run) (by simp)
        (by intro x hx; rcases List.mem_cons.1 hx with h1 | h1
            · rw [h1, h]
            · exact hall x h1) g hg
    · rw [chunksGo, if_neg h] at hg
      rcases List.mem_cons.1 hg with h1 | h1
      · subst h1
        refine ⟨by simpa using hr, ?_⟩
        intro x hx
        have hx1 : x ∈ run := by simpa using hx
        rw [runId_reverse run curId hr hall]
        exact hall x hx1
      · exact ih c.id [c] (by simp) (by simp) g h1

/-- The chunk list starts with a run of `curId`, and adjacent chunks carry
different identifiers (the runs are maximal). -/
theorem chunksGo_maximal (cs : List Course) :
    ∀ (curId : Str) (run : List Course), run ≠ [] →
      (∀ x ∈ run, x.id = curId) →
      ∃ g gs, chunksGo curId run cs = g :: gs ∧ runId g = curId
        ∧ List.Chain' (fun a b => a ≠ b) ((g :: gs).map runId) := by
  induction cs with
  | nil =>
    intro curId run hr hall
    exact ⟨run.reverse, [], by simp [chunksGo],
      runId_reverse run curId hr hall, by simp⟩
  | cons c cs ih =>
    intro curId run hr hall
    by_cases h : c.id = curId
    · rw [chunksGo, if_pos h]
      exact ih curId (c :: run)
        (by simp)
        (by intro x hx; rcases List.mem_cons.1 hx with h1 | h1
            · rw [h1, h]
            · exact hall x h1)
    · rw [chunksGo, if_neg h]
      rcases ih c.id [c] (by simp) (by simp) with ⟨g, gs, he, hid, hch⟩
      rw [he]
      have hrev : runId run.reverse = curId := runId_reverse run curId hr hall
      refine ⟨run.reverse, g :: gs, rfl, hrev, ?_⟩
      simp only [List.map_cons, List.chain'_cons] at hch ⊢
      refine ⟨?_, hch⟩
      rw [hrev, hid]
      exact fun he2 => h he2.symm

/-- Entries of the duplicate-count loop are at least the running count. -/
theorem dupCountsGo_pos (cs : List Course) :
    ∀ (curId : Str) (cur : Nat), 1 ≤ cur →
      ∀ n ∈ dupCountsGo curId cur cs, 1 ≤ n := by
  induction cs with
  | nil =>
    intro curId cur hc n hn
    simp only [dupCountsGo, List.mem_singleton] at hn
    omega
  | cons c cs ih =>
    intro curId cur hc n hn
    by_cases h : c.id = curId
    · rw [dupCountsGo, if_pos h] at hn
      exact ih curId (cur + 1) (by omega) n hn
    · rw [dupCountsGo, if_neg h] at hn
      rcases List.mem_cons.1 hn with h1 | h1
      · omega
      · exact ih c.id 1 (by omega) n h1

/-- The duplicate-count loop is nonempty and its head is at least the
running count. -/
theorem dupCountsGo_head (cs : List Course) :
    ∀ (curId : Str) (cur : Nat),
      ∃ n rest, dupCountsGo curId cur cs = n :: rest ∧ cur ≤ n := by
  induction cs with
  | nil => intro curId cur; exact ⟨cur, [], rfl, le_refl cur⟩
  | cons c cs ih =>
    intro curId cur
    by_cases h : c.id = curId
    · rcases ih curId (cur + 1) with ⟨n, rest, he, hle⟩
      exact ⟨n, rest, by rw [dupCountsGo, if_pos h, he], by omega⟩
    · exact ⟨cur, dupCountsGo c.id 1 cs, by rw [dupCountsGo, if_neg h], le_refl cur⟩

/-- The duplicate counts sum to the running count plus the remaining input
length. -/
theorem dupCountsGo_sum (cs : List Course) :
    ∀ (curId : Str) (cur : Nat),
      (dupCountsGo curId cur cs).sum = cur + cs.length := by
  induction cs with
  | nil => intro curId cur; simp [dupCountsGo]
  | cons c cs ih =>
    intro curId cur
    by_cases h : c.id = curId
    · rw [dupCountsGo, if_pos h, ih]
      simp; omega
    · rw [dupCountsGo, if_neg h, List.sum_cons, ih]
      simp; omega

/-- The run lengths of a list sum to its length. -/
theorem dupCounts_sum (l : List Course) : (dupCounts l).sum = l.length := by
  cases l with
  | nil => rfl
  | cons c cs => simpa [dupCounts, Nat.add_comm] using dupCountsGo_sum cs c.id 1

/-- Every run length is positive. -/
theorem dupCounts_pos (l : List Course) : ∀ n ∈ dupCounts l, 1 ≤ n := by
  cases l with
  | nil => intro n hn; simp [dupCounts] at hn
  | cons c cs => exact dupCountsGo_pos cs c.id 1 (le_refl 1)

/-- Expanding run counts into spans preserves the total length when every
count is positive. -/
theorem spanExpansion_length (ns : List Nat) (h : ∀ n ∈ ns, 1 ≤ n) :
    (ns.flatMap (fun n => n :: List.replicate (n - 1) 0)).length = ns.sum := by
  induction ns with
  | nil => rfl
  | cons n ns ih =>
    have hn := h n (List.mem_cons_self n ns)
    have := ih (fun m hm => h m (List.mem_cons_of_mem n hm))
    simp only [List.flatMap_cons, List.length_append, List.length_cons,
      List.length_replicate, this, List.sum_cons]
    omega

/-- Expanding run counts into spans preserves the sum. -/
theorem spanExpansion_sum (ns : List Nat) :
    (ns.flatMap (fun n => n :: List.replicate (n - 1) 0)).sum = ns.sum := by
  induction ns with
  | nil => rfl
  | cons n ns ih =>
    simp only [List.flatMap_cons, List.sum_append, List.sum_cons, ih]
    simp

/-- Every span entry is zero or one of the counts. -/
theorem spanExpansion_mem (ns : List Nat) :
    ∀ s ∈ ns.flatMap (fun n => n :: List.replicate (n - 1) 0),
      s = 0 ∨ s ∈ ns := by
  induction ns with
  | nil => intro s hs; simp at hs
  | cons n ns ih =>
    intro s hs
    simp only [List.flatMap_cons, List.mem_append, List.mem_cons] at hs
    rcases hs with (h1 | h1) | h1
    · exact Or.inr (List.mem_cons.2 (Or.inl h1))
    · exact Or.inl (List.eq_of_mem_replicate h1)
    · rcases ih s h1 with h2 | h2
      · exact Or.inl h2
      · exact Or.inr (List.mem_cons.2 (Or.inr h2))

/-- C7: GroupSpanner correctness. The span sequence has the same length as
the input; it is the concatenation, over the maximal adjacent runs of
equal-identifier courses, of the run length followed by zeros for the rest
of the run; the runs flatten back to the input, are nonempty and
constant-identifier, and adjacent runs carry different identifiers (so runs
are detected only by adjacency); in particular identifiers `[A, A, B, A]`
yield spans `[2, 0, 1, 1]`. -/
theorem C7_group_spanner (l : List Course) :
    (visibleCourseIdRowSpans l).length = l.length
    ∧ visibleCourseIdRowSpans l
        = (chunks l).flatMap (fun g => g.length :: List.replicate (g.length - 1) 0)
    ∧ (chunks l).flatten = l
    ∧ (∀ g ∈ chunks l, g ≠ [] ∧ ∀ x ∈ g, x.id = runId g)
    ∧ List.Chain' (fun a b => a ≠ b) ((chunks l).map runId)
    ∧ visibleCourseIdRowSpans
        [mkCourse ['A'] [] 1, mkCourse ['A'] [] 2, mkCourse ['B'] [] 3,
          mkCourse ['A'] [] 4] = [2, 0, 1, 1] := by
  refine ⟨?_, ?_, ?_, ?_, ?_, by decide⟩
  · rw [visibleCourseIdRowSpans, spanExpansion_length _ (dupCounts_pos l),
      dupCounts_sum]
  · rw [visibleCourseIdRowSpans, dupCounts_eq_map_length, List.flatMap_map]
  · cases l with
    | nil => rfl
    | cons c cs =>
      rw [chunks, chunksGo_flatten]
      simp
  · cases l with
    | nil => intro g hg; simp [chunks] at hg
    | cons c cs => exact chunksGo_runs cs c.id [c] (by simp) (by simp)
  · cases l with
    | nil => simp [chunks]
    | cons c cs =>
      rcases chunksGo_maximal cs c.id [c] (by simp) (by simp)
        with ⟨g, gs, he, _, hch⟩
      rw [chunks, he]
      exact hch

/-- C10: span-sum invariant. The spans sum to the input length, every entry
is zero or one of the (positive) run lengths, and for a nonempty input the
first span entry is positive. -/
theorem C10_span_sum_invariant (l : List Course) :
    (visibleCourseIdRowSpans l).sum = l.length
    ∧ (∀ s ∈ visibleCourseIdRowSpans l, s = 0 ∨ s ∈ dupCounts l)
    ∧ (∀ n ∈ dupCounts l, 0 < n)
    ∧ (l ≠ [] →
        ∃ n rest, visibleCourseIdRowSpans l = n :: rest ∧ 0 < n) := by
  refine ⟨?_, spanExpansion_mem _, dupCounts_pos l, ?_⟩
  · rw [visibleCourseIdRowSpans, spanExpansion_sum, dupCounts_sum]
  · intro hne
    cases l with
    | nil => exact absurd rfl hne
    | cons c cs =>
      rcases dupCountsGo_head cs c.id 1 with ⟨n, rest, he, hle⟩
      refine ⟨n, List.replicate (n - 1) 0
        ++ rest.flatMap (fun m => m :: List.replicate (m - 1) 0), ?_, by omega⟩
      rw [visibleCourseIdRowSpans, dupCounts, he]
      simp [List.flatMap_cons]

/-- Concrete instance of `C10_span_sum_invariant` on a one-course list. -/
theorem C10_span_sum_invariant_witness :
    (visibleCourseIdRowSpans [mkCourse ['A'] [] 1]).sum
        = ([mkCourse ['A'] [] 1] : List Course).length
      ∧ ∃ n rest, visibleCourseIdRowSpans [mkCourse ['A'] [] 1] = n :: rest
          ∧ 0 < n :=
  ⟨(C10_span_sum_invariant [mkCourse ['A'] [] 1]).1,
    (C10_span_sum_invariant [mkCourse ['A'] [] 1]).2.2.2 (by decide)⟩

/-! ### Lemmas about trimming -/

/-- Dropping a satisfied prefix twice is the same as dropping it once. -/
theorem dropWhile_idem (p : Char → Bool) (l : Str) :
    List.dropWhile p (List.dropWhile p l) = List.dropWhile p l := by
  induction l with
  | nil => rfl
  | cons a l ih =>
    by_cases h : p a
    · rw [List.dropWhile_cons_of_pos h, ih]
    · rw [List.dropWhile_cons_of_neg h, List.dropWhile_cons_of_neg h]

/-- If a list is already left-trimmed, right-trimming keeps it
left-trimmed. -/
theorem dropWhile_reverse_dropWhile (p : Char → Bool) (l : Str)
    (h : List.dropWhile p l = l) :
    List.dropWhile p ((List.dropWhile p l.reverse).reverse)
      = (List.dropWhile p l.reverse).reverse := by
  cases hr : (List.dropWhile p l.reverse).reverse with
  | nil => rfl
  | cons c t =>
    have hpre : (c :: t) <+: l := by
      rw [← hr]
      have hsuf : List.dropWhile p l.reverse <:+ l.reverse :=
        List.dropWhile_suffix p
      have h2 := List.reverse_prefix.2 hsuf
      simpa using h2
    rcases hpre with ⟨rest, hrest⟩
    have hcl : l = c :: (t ++ rest) := by rw [← hrest]; simp
    have hnc : ¬ p c := by
      intro hpc
      have := h
      rw [hcl, List.dropWhile_cons_of_pos hpc] at this
      have hlen := congrArg List.length this
      have hle : (List.dropWhile p (t ++ rest)).length ≤ (t ++ rest).length :=
        (List.dropWhile_suffix p).sublist.length_le
      simp at hlen hle
      omega
    rw [List.dropWhile_cons_of_neg hnc]

/-- Trimming is idempotent: every trimmed string is its own trim. -/
theorem trim_idem (s : Str) : trim (trim s) = trim s := by
  have h1 : trimL (trim s) = trim s := by
    rw [trim, trimL]
    exact dropWhile_reverse_dropWhile Char.isWhitespace (trimL s)
      (dropWhile_idem Char.isWhitespace s)
  show ((trimL (trim s)).reverse.dropWhile Char.isWhitespace).reverse = trim s
  rw [h1]
  conv_lhs => rw [trim]
  rw [List.reverse_reverse, dropWhile_idem, ← trim]

/-- C5: TabularParser wholesale failure. The parser returns `none` (a
`ParseFailure`, hence no records at all) exactly when the underlying tabular
decoder reports at least one error; otherwise it returns a record
sequence — there is never a partial result on failure. -/
theorem C5_parser_wholesale_failure (res : ParseResult) (year : Nat) :
    (parseCoursesCsv res year = none ↔ 0 < res.errors)
    ∧ (parseCoursesCsv res year
          = some (res.data.filterMap (parseRowCourse year))
        ↔ res.errors = 0) := by
  by_cases h : res.errors > 0
  · constructor
    · simp [parseCoursesCsv, h]
    · constructor
      · intro h2
        rw [parseCoursesCsv, if_pos h] at h2
        exact absurd h2 (by simp)
      · intro h2; omega
  · have h0 : res.errors = 0 := by omega
    constructor
    · simp [parseCoursesCsv, h]
    · simp [parseCoursesCsv, h, h0]

/-- C4: TabularParser row postconditions. A successful parse of `N` decoded
rows yields at most `N` records; every record has a non-empty identifier,
all nine field values trimmed, the caller-supplied vintage and the key
`identifier ++ "," ++ vintage`; and a row that fails the structural guard,
or whose identifier trims to empty, produces no record and its presence or
absence in the data does not change the output. -/
theorem C4_parser_row_postconditions (res : ParseResult) (year : Nat)
    (cs : List Course) (h : parseCoursesCsv res year = some cs) :
    cs.length ≤ res.data.length
    ∧ (∀ c ∈ cs,
        c.id ≠ [] ∧ trim c.id = c.id ∧ trim c.name = c.name
          ∧ trim c.credit = c.credit ∧ trim c.term = c.term
          ∧ trim c.when = c.when ∧ trim c.expects = c.expects
          ∧ trim c.remark = c.remark ∧ trim c.description = c.description
          ∧ trim c.organizer = c.organizer ∧ c.year = year
          ∧ c.key = c.id ++ ',' :: Nat.toDigits 10 year)
    ∧ (∀ it, rowFields it = none → parseRowCourse year it = none)
    ∧ (∀ it fs, rowFields it = some fs → trim fs.1 = [] →
        parseRowCourse year it = none)
    ∧ (∀ (pre post : List RawItem) (it : RawItem),
        parseRowCourse year it = none →
        parseCoursesCsv ⟨0, pre ++ it :: post⟩ year
          = parseCoursesCsv ⟨0, pre ++ post⟩ year) := by
  have hcs : cs = res.data.filterMap (parseRowCourse year) := by
    by_cases he : res.errors > 0
    · rw [parseCoursesCsv, if_pos he] at h
      exact absurd h (by simp)
    · rw [parseCoursesCsv, if_neg he] at h
      exact (Option.some_inj.1 h).symm
  refine ⟨?_, ?_, ?_, ?_, ?_⟩
  · rw [hcs]
    exact List.length_filterMap_le _ _
  · intro c hc
    rw [hcs] at hc
    rcases List.mem_filterMap.1 hc with ⟨it, _, hit⟩
    rw [parseRowCourse] at hit
    rcases hfs : rowFields it with _ | fs
    · rw [hfs] at hit; exact absurd hit (by simp)
    · rw [hfs] at hit
      rcases fs with ⟨i, n, cr, t, w, e, rm, d, o⟩
      simp only at hit
      by_cases hid : trim i = []
      · rw [if_pos hid] at hit; exact absurd hit (by simp)
      · rw [if_neg hid] at hit
        have hc2 := Option.some_inj.1 hit
        rw [← hc2]
        exact ⟨hid, trim_idem i, trim_idem n, trim_idem cr, trim_idem t,
          trim_idem w, trim_idem e, trim_idem rm, trim_idem d, trim_idem o,
          rfl, rfl⟩
  · intro it hnone
    rw [parseRowCourse, hnone]
  · intro it fs hfs hempty
    rw [parseRowCourse, hfs]
    rcases fs with ⟨i, n, cr, t, w, e, rm, d, o⟩
    simp only at hempty
    simp [hempty]
  · intro pre post it hnone
    simp [parseCoursesCsv, List.filterMap_append, List.filterMap_cons, hnone]

/-- A structurally valid decoded row: every cell present with a string
value; the identifier cell carries surrounding whitespace. -/
def demoRow : RawRow :=
  { idCell := some (.str [' ', 'A', '1']), nameCell := some (.str ['n']),
    creditCell := some (.str ['1']), termCell := some (.str ['t']),
    whenCell := some (.str ['w']), expectsCell := some (.str ['e']),
    remarkCell := some (.str ['r']), descriptionCell := some (.str ['d']),
    organizerCell := some (.str ['o']) }

/-- A decoder result with no errors, one valid row and one non-object row. -/
def demoRes : ParseResult := ⟨0, [.obj demoRow, .nonObject]⟩

/-- The record parsed from `demoRes` at vintage 2023. -/
def demoParsed : List Course :=
  [{ id := ['A', '1'], name := ['n'], credit := ['1'], term := ['t'],
     when := ['w'], expects := ['e'], remark := ['r'], description := ['d'],
     organizer := ['o'], year := 2023,
     key := ['A', '1', ',', '2', '0', '2', '3'] }]

/-- Concrete instance of `C4_parser_row_postconditions`: one valid and one
skipped row give one record from two decoded rows. -/
theorem C4_parser_row_postconditions_witness :
    demoParsed.length ≤ demoRes.data.length :=
  (C4_parser_row_postconditions demoRes 2023 demoParsed (by decide)).1

/-! ### The canonical order -/

/-- The string order is asymmetric. -/
theorem strLt_asymm : ∀ (a b : Str), strLt a b = true → strLt b a = false := by
  intro a
  induction a with
  | nil =>
    intro b h
    cases b with
    | nil => simp [strLt] at h
    | cons y ys => rfl
  | cons x xs ih =>
    intro b h
    cases b with
    | nil => simp [strLt] at h
    | cons y ys =>
      simp only [strLt] at h ⊢
      by_cases h1 : x.toNat < y.toNat
      · rw [if_neg (by omega), if_pos h1]
      · rw [if_neg h1] at h
        by_cases h2 : y.toNat < x.toNat
        · rw [if_pos h2] at h
          exact absurd h (by simp)
        · rw [if_neg h2] at h
          rw [if_neg h2, if_neg h1]
          exact ih ys h

/-- Non-strictness transfers along the string order. -/
theorem strLt_le_trans : ∀ (a b c : Str),
    strLt b a = false → strLt c b = false → strLt c a = false := by
  intro a
  induction a with
  | nil =>
    intro b c _ _
    cases c with
    | nil => rfl
    | cons z zs => rfl
  | cons x xs ih =>
    intro b c h1 h2
    cases b with
    | nil => simp [strLt] at h1
    | cons y ys =>
      cases c with
      | nil => simp [strLt] at h2
      | cons z zs =>
        simp only [strLt] at h1 h2 ⊢
        have hyx : ¬ y.toNat < x.toNat := by
          intro hc
          rw [if_pos hc] at h1
          exact absurd h1 (by simp)
        have hzy : ¬ z.toNat < y.toNat := by
          intro hc
          rw [if_pos hc] at h2
          exact absurd h2 (by simp)
        by_cases hzx : z.toNat < x.toNat
        · exfalso; omega
        · rw [if_neg hzx]
          by_cases hxz : x.toNat < z.toNat
          · rw [if_pos hxz]
          · rw [if_neg hxz]
            by_cases hxy : x.toNat < y.toNat
            · exfalso
              rw [if_pos (by omega : z.toNat < y.toNat)] at h2
              exact absurd h2 (by simp)
            · rw [if_neg hyx, if_neg hxy] at h1
              rw [if_neg hzy, if_neg (by omega : ¬ y.toNat < z.toNat)] at h2
              exact ih ys zs h1 h2

instance : IsTotal Course keyLe where
  total a b := by
    cases hb : strLt b.key a.key with
    | false => exact Or.inl hb
    | true => exact Or.inr (strLt_asymm b.key a.key hb)

instance : IsTrans Course keyLe where
  trans a b c hab hbc := strLt_le_trans a.key b.key c.key hab hbc

/-- C6: RecordStore canonical order. When every source parses, the output
is the concatenation of the per-source records (as a permutation, reordered
by the stable sort), it is sorted ascending by the lexicographic string
order on `sortKey`, and sorting it a second time leaves it unchanged. -/
theorem C6_record_store_canonical_order (sources : List (ParseResult × Nat))
    (out : List Course) (h : loadCourses sources = some out) :
    (∃ all, parseAll sources = some all
      ∧ out = List.insertionSort keyLe all
      ∧ out.Perm all)
    ∧ List.Sorted keyLe out
    ∧ List.insertionSort keyLe out = out := by
  rcases hall : parseAll sources with _ | all
  · rw [loadCourses, hall] at h
    exact absurd h (by simp)
  · rw [loadCourses, hall] at h
    have hout : out = List.insertionSort keyLe all := (Option.some_inj.1 h).symm
    have hsorted : List.Sorted keyLe out := by
      rw [hout]
      exact List.sorted_insertionSort keyLe all
    exact ⟨⟨all, rfl, hout, hout ▸ List.perm_insertionSort keyLe all⟩,
      hsorted, hsorted.insertionSort_eq⟩

/-- Concrete instance of `C6_record_store_canonical_order`: the one-source
store output is sorted by `sortKey`. -/
theorem C6_record_store_canonical_order_witness :
    List.Sorted keyLe demoParsed :=
  (C6_record_store_canonical_order [(demoRes, 2023)] demoParsed
    (by decide)).2.1

/-! ### Lemmas about the stable partition -/

/-- Inserting a pair whose key is `-1` into a list of pairs with keys in
`{-1, 0}` puts it at the front. -/
theorem orderedInsert_key_neg (x : Int × Course) (hx : x.1 = -1)
    (l : List (Int × Course)) (hl : ∀ a ∈ l, a.1 = -1 ∨ a.1 = 0) :
    List.orderedInsert (fun a b : Int × Course => a.1 ≤ b.1) x l = x :: l := by
  cases l with
  | nil => rfl
  | cons c rest =>
    have hle : x.1 ≤ c.1 := by
      rcases hl c (List.mem_cons_self c rest) with h | h <;> omega
    simp [List.orderedInsert, hle]

/-- Inserting a pair whose key is `0` into keys `-1` followed by keys `0`
lands exactly between the two blocks. -/
theorem orderedInsert_key_zero (x : Int × Course) (hx : x.1 = 0) :
    ∀ (A B : List (Int × Course)),
      (∀ a ∈ A, a.1 = -1) → (∀ b ∈ B, b.1 = 0) →
      List.orderedInsert (fun a b : Int × Course => a.1 ≤ b.1) x (A ++ B)
        = A ++ x :: B := by
  intro A
  induction A with
  | nil =>
    intro B _ hB
    cases B with
    | nil => rfl
    | cons b B2 =>
      have hle : x.1 ≤ b.1 := by rw [hx, hB b (List.mem_cons_self b B2)]
      simp [List.orderedInsert, hle]
  | cons a A2 ih =>
    intro B hA hB
    have hka : a.1 = -1 := hA a (List.mem_cons_self a A2)
    have hnle : ¬ x.1 ≤ a.1 := by rw [hx, hka]; omega
    simp only [List.cons_append, List.orderedInsert, if_neg hnle]
    exact congrArg (a :: ·)
      (ih B (fun a2 h2 => hA a2 (List.mem_cons_of_mem a h2)) hB)

/-- Sorting the key-value pairs with the stable sort partitions them: the
key `-1` pairs come first in order, then the key `0` pairs in order. -/
theorem insertionSort_pairs_partition (P : Course → Bool) (l : List Course) :
    List.insertionSort (fun a b : Int × Course => a.1 ≤ b.1)
        (l.map (fun t => ((if P t then (-1 : Int) else 0), t)))
      = (l.filter P).map (fun t => ((-1 : Int), t))
        ++ (l.filter (fun t => !P t)).map (fun t => ((0 : Int), t)) := by
  induction l with
  | nil => rfl
  | cons c l ih =>
    simp only [List.map_cons, List.insertionSort, ih]
    by_cases hc : P c
    · rw [orderedInsert_key_neg _ (by simp [hc]) _ ?_]
      · simp [List.filter_cons, hc]
      · intro a ha
        rcases List.mem_append.1 ha with h | h
        · rcases List.mem_map.1 h with ⟨t, _, ht⟩
          exact Or.inl (by rw [← ht])
        · rcases List.mem_map.1 h with ⟨t, _, ht⟩
          exact Or.inr (by rw [← ht])
    · rw [orderedInsert_key_zero _ (by simp [hc]) _ _ ?_ ?_]
      · simp [List.filter_cons, hc]
      · intro a ha
        rcases List.mem_map.1 ha with ⟨t, _, ht⟩
        rw [← ht]
      · intro b hb
        rcases List.mem_map.1 hb with ⟨t, _, ht⟩
        rw [← ht]

/-- Sorting with `sortByKeyCached` on a two-valued key is the stable partition:
key `-1` elements first, each block in input order. -/
theorem sortByKeyCached_partition (P : Course → Bool) (l : List Course) :
    sortByKeyCached l (fun c => if P c then (-1 : Int) else 0)
      = l.filter P ++ l.filter (fun c => !P c) := by
  rw [sortByKeyCached, insertionSort_pairs_partition]
  simp

/-- The matching prefix of a partitioned-by-`P` list is the matching block. -/
theorem takeWhile_partition_length (P : Course → Bool) (A B : List Course)
    (hA : ∀ a ∈ A, P a = true) (hB : ∀ b ∈ B, P b = false) :
    ((A ++ B).takeWhile P).length = A.length := by
  induction A with
  | nil =>
    cases B with
    | nil => rfl
    | cons b B2 =>
      have := hB b (List.mem_cons_self b B2)
      simp [List.takeWhile, this]
  | cons a A2 ih =>
    have ha := hA a (List.mem_cons_self a A2)
    have h2 := ih (fun x hx => hA x (List.mem_cons_of_mem a hx))
    simp [List.takeWhile_cons, ha, h2]

/-- C2: PriorityRanker stable partition. For a non-empty query the ranked
sequence is exactly the matching records (case-insensitive substring of any
of the fields tested by `courseContainsString`, description included iff
requested) in input order, followed by the non-matching records in input
order, and `matchCount` is the number of matching records. -/
theorem C2_priority_ranker_stable_partition (l : List Course) (q : Str)
    (d : Bool) (hq : q ≠ []) :
    (prioritize l q d).1
        = l.filter (fun c => courseContainsString c q d)
          ++ l.filter (fun c => !courseContainsString c q d)
      ∧ (prioritize l q d).2
        = some (l.countP (fun c => courseContainsString c q d)) := by
  have hkey : (fun c => -(if courseContainsString c q d then (1 : Int) else 0))
      = (fun c => if courseContainsString c q d then (-1 : Int) else 0) := by
    funext c
    by_cases hc : courseContainsString c q d <;> simp [hc]
  have hsorted : sortByKeyCached l
        (fun c => -(if courseContainsString c q d then (1 : Int) else 0))
      = l.filter (fun c => courseContainsString c q d)
        ++ l.filter (fun c => !courseContainsString c q d) := by
    rw [hkey, sortByKeyCached_partition]
  constructor
  · simp only [prioritize, if_neg hq]
    exact hsorted
  · simp only [prioritize, if_neg hq]
    rw [hsorted, Option.some_inj,
      takeWhile_partition_length _ _ _
        (fun a ha => List.of_mem_filter ha)
        (fun b hb => by
          have := List.of_mem_filter hb
          simpa using this),
      List.countP_eq_length_filter]

/-- Concrete instance of `C2_priority_ranker_stable_partition`: the
records `[A(x), B(y), C(x), D(y)]` with query `y` partition to
`[B, D, A, C]` with `matchCount = 2`. -/
theorem C2_priority_ranker_stable_partition_witness :
    (prioritize
        [mkCourse ['a'] ['x'] 1, mkCourse ['b'] ['y'] 1,
          mkCourse ['c'] ['x'] 1, mkCourse ['d'] ['y'] 1] ['y'] false).1
        = ([mkCourse ['a'] ['x'] 1, mkCourse ['b'] ['y'] 1,
            mkCourse ['c'] ['x'] 1, mkCourse ['d'] ['y'] 1].filter
              (fun c => courseContainsString c ['y'] false))
          ++ ([mkCourse ['a'] ['x'] 1, mkCourse ['b'] ['y'] 1,
              mkCourse ['c'] ['x'] 1, mkCourse ['d'] ['y'] 1].filter
                (fun c => !courseContainsString c ['y'] false))
      ∧ (prioritize
          [mkCourse ['a'] ['x'] 1, mkCourse ['b'] ['y'] 1,
            mkCourse ['c'] ['x'] 1, mkCourse ['d'] ['y'] 1] ['y'] false).2
        = some ([mkCourse ['a'] ['x'] 1, mkCourse ['b'] ['y'] 1,
            mkCourse ['c'] ['x'] 1, mkCourse ['d'] ['y'] 1].countP
              (fun c => courseContainsString c ['y'] false)) :=
  C2_priority_ranker_stable_partition
    [mkCourse ['a'] ['x'] 1, mkCourse ['b'] ['y'] 1,
      mkCourse ['c'] ['x'] 1, mkCourse ['d'] ['y'] 1] ['y'] false (by decide)

/-- C8: PriorityRanker no-op on the empty query: the input sequence is
returned unchanged and the match count is `none` (`undefined`), which is a
different value from `some 0`. -/
theorem C8_empty_query_noop (l : List Course) (d : Bool) :
    prioritize l [] d = (l, none) ∧ (prioritize l [] d).2 ≠ some 0 := by
  constructor
  · simp [prioritize]
  · simp [prioritize]

/-! ### The identifier sub-predicate and case-insensitivity -/

/-- The needle occurs in the haystack exactly when it is an infix of it. -/
theorem hasSub_iff_infix (n : Str) : ∀ (h : Str), hasSub n h = true ↔ n <:+: h := by
  intro h
  induction h with
  | nil =>
    rw [hasSub, List.isPrefixOf_iff_prefix]
    constructor
    · intro h2
      exact h2.isInfix
    · intro h2
      exact List.infix_nil.1 h2 ▸ List.prefix_refl []
  | cons c t ih =>
    rw [hasSub, Bool.or_eq_true, List.isPrefixOf_iff_prefix, ih,
      List.infix_cons_iff]

/-- Specification-side definition, following the claim's words: the filter
text matches the identifier ignoring case — its lowercasing is a prefix
(prefix mode) or substring (contains mode) of the identifier's
lowercasing. -/
def ciIdMatchesSpec (pm : Bool) (filterText : Str) (id : Str) : Bool :=
  if pm then (lower filterText).isPrefixOf (lower id)
  else hasSub (lower filterText) (lower id)

/-- A course whose identifier contains lowercase letters. -/
def courseLowerAB : Course := mkCourse ['a', 'b'] [] 1

/-- An identifier filter configuration with text `ab` in prefix mode and
all other predicates passing. -/
def cfgLowerAB : FilterConfig :=
  { idFilter := ['a', 'b'], idFilterMode := .prefixMode, nameFilter := [],
    nameFilterMode := .containMode, yearFilter := [1] }

/-- C3 fails on the code: the filter text `"ab"` is a case-insensitive
prefix of the identifier `"ab"`, but the identifier sub-predicate (and with
it the whole filter conjunction) rejects the record, because only the
filter text is uppercased while the identifier is compared as-is. -/
theorem C3_identifier_match_counterexample :
    idFilterPasses true (upper cfgLowerAB.idFilter) courseLowerAB = false
    ∧ coursePassesFilter cfgLowerAB courseLowerAB = false
    ∧ ciIdMatchesSpec true cfgLowerAB.idFilter courseLowerAB.id = true := by
  decide

/-- C3 amended: for every record and identifier filter text, the record
passes the identifier sub-predicate iff the UPPERCASED filter text is a
prefix (prefix mode) or substring (contains mode) of the identifier,
compared case-sensitively; matching is case-insensitive only in the filter
text, not in the identifier. -/
theorem C3_identifier_match_amended (f : Str) (c : Course) :
    (idFilterPasses true (upper f) c = true ↔ upper f <+: c.id)
    ∧ (idFilterPasses false (upper f) c = true ↔ upper f <:+: c.id) := by
  constructor
  · rw [idFilterPasses, if_pos rfl, List.isPrefixOf_iff_prefix]
  · rw [idFilterPasses, if_neg Bool.false_ne_true, hasSub_iff_infix]

/-- C9: defensive cap handling. With a NaN cap the break comparison
`length === cap + 1` is never true, so the computation completes, every
matching record is included and `truncated` is reported false. -/
theorem C9_nan_cap_no_effective_cap (courses : List Course)
    (cfg : FilterConfig) :
    visibleCoursesOf courses cfg .nan
      = (courses.filter (coursePassesFilter cfg), false) :=
  filterLoop_nan (coursePassesFilter cfg) courses 0

end Akiko

